import Mathlib

/-!
Verification of the regex find/replace transform engine
(`src/main.ts` of the obsidian-regex-replace plugin).

The engine delegates pattern matching to the host's native regex
capability (`new RegExp`, `String.prototype.match/replace/split`,
`RegExp.prototype.exec`).  That capability is modelled here as an
explicit parameter: a `compile` function producing either a matcher or
`none` (the thrown `SyntaxError` of an invalid pattern).  Two matcher
shapes are used, mirroring the two ways the source consumes the native
engine:

* `Matcher` — the whole-text operations `text.match(re)` (match count)
  and `text.replace(re, repl)` used by `applyExpression`, `applyBatch`
  and the modal submit handler;
* `ExecMatcher` — the stateful `re.exec` scan used by the live-preview
  loop, abstracted as a function from (text, scan position) to the next
  match, together with the two facts any native exec satisfies: the
  match starts no earlier than the scan position and ends within the
  text.

Concrete instances (`litCompile`, `rxCompile`, `starXMatcher`) model the
native engine at the inputs where its behaviour is elementary:
metacharacter-free patterns behave as literal substring search, `x*`
matches a greedy run of `x` at every position, and a pattern such as
`"("` fails to compile.  Every concrete evaluation below instantiates
the models only at such inputs.

Text is handled as `List Char` (one element per UTF-16 code unit of the
ASCII inputs used), with `String` wrappers where the source passes
strings around.
-/

/-- Saved expression record (`interface SavedExpression`, src/main.ts:31). -/
structure SavedExpression where
  name : String
  pattern : String
  flags : String
  replace : String
deriving DecidableEq, Repr

/-- Saved group record (`interface ExpressionGroup`, src/main.ts:38):
items are expression names, weak references. -/
structure ExpressionGroup where
  name : String
  items : List String
deriving DecidableEq, Repr

/-- The three settings fields the transform engine reads
(`RfrPluginSettings`, src/main.ts:18; the remaining fields only feed the UI). -/
structure EngineSettings where
  selOnly : Bool
  processLineBreak : Bool
  processTab : Bool
deriving DecidableEq, Repr

/-- The host editor text state as the engine sees it: full document text
(`editor.getValue()`) and current selection text (`editor.getSelection()`). -/
structure Editor where
  doc : String
  sel : String
deriving DecidableEq, Repr

/-- One call to the host text-buffer collaborator, in issue order. -/
inductive EditOp where
  | readDoc
  | readSel
  | writeDoc (s : String)
  | writeSel (s : String)
deriving DecidableEq, Repr

/-- Is this host call a write (`setValue` / `replaceSelection`)? -/
def EditOp.isWrite : EditOp → Bool
  | .writeDoc _ => true
  | .writeSel _ => true
  | _ => false

/-- Is this host call a read (`getValue` / `getSelection`)? -/
def EditOp.isRead : EditOp → Bool
  | .readDoc => true
  | .readSel => true
  | _ => false

/-- Number of write calls in a host-call trace. -/
def countWrites (t : List EditOp) : Nat := (t.filter EditOp.isWrite).length

/-- Number of read calls in a host-call trace. -/
def countReads (t : List EditOp) : Nat := (t.filter EditOp.isRead).length

/-! ## Replacement-template escape processing

`applyExpression` / `applyBatch` / the modal submit handler run
`replaceString.replace(/\\n/gm, '\n')` and then
`replaceString.replace(/\\t/gm, '\t')` (src/main.ts:242-243, 269-270,
487-500).  The pattern `/\\n/` matches exactly the two-character
sequence backslash-`n`, so the operation is leftmost non-overlapping
replacement of that two-character sequence, modelled directly on the
character list. -/

/-- Leftmost non-overlapping replacement of the two-character sequence
backslash-`n` by an actual line break (`replace(/\\n/gm, '\n')`). -/
def replaceBackslashN : List Char → List Char
  | '\\' :: 'n' :: rest => '\n' :: replaceBackslashN rest
  | c :: rest => c :: replaceBackslashN rest
  | [] => []

/-- Leftmost non-overlapping replacement of the two-character sequence
backslash-`t` by an actual tab (`replace(/\\t/gm, '\t')`). -/
def replaceBackslashT : List Char → List Char
  | '\\' :: 't' :: rest => '\t' :: replaceBackslashT rest
  | c :: rest => c :: replaceBackslashT rest
  | [] => []

/-- Escape resolution applied to a replacement template before it is
used: line-break expansion first (when enabled), then tab expansion
(when enabled) — the order of the two `if` statements in the source. -/
def processReplacement (lineBreak tab : Bool) (s : String) : String :=
  let s1 := if lineBreak then ⟨replaceBackslashN s.data⟩ else s
  if tab then ⟨replaceBackslashT s1.data⟩ else s1

/-- Does the character list contain the two-character sequence
backslash-`n`? -/
def hasBackslashN : List Char → Bool
  | '\\' :: 'n' :: _ => true
  | _ :: rest => hasBackslashN rest
  | [] => false

theorem replaceBackslashN_cons (c : Char) (l : List Char)
    (h : c ≠ '\\' ∨ l.head? ≠ some 'n') :
    replaceBackslashN (c :: l) = c :: replaceBackslashN l := by
  rw [replaceBackslashN.eq_def]
  split
  · next rest heq =>
    injection heq with h1 h2
    subst h1 h2
    rcases h with h | h
    · exact absurd rfl h
    · exact absurd rfl h
  · next heq => injection heq with h1 h2; subst h1 h2; rfl
  · next heq => exact absurd heq (by simp)

theorem hasBackslashN_cons (c : Char) (l : List Char)
    (h : c ≠ '\\' ∨ l.head? ≠ some 'n') :
    hasBackslashN (c :: l) = hasBackslashN l := by
  rw [hasBackslashN.eq_def]
  split
  · next rest heq =>
    injection heq with h1 h2
    subst h1 h2
    rcases h with h | h
    · exact absurd rfl h
    · exact absurd rfl h
  · next heq => injection heq with h1 h2; subst h1 h2; rfl
  · next heq => exact absurd heq (by simp)

theorem head_replaceBackslashN_ne (l : List Char) (h : l.head? ≠ some 'n') :
    (replaceBackslashN l).head? ≠ some 'n' := by
  rw [replaceBackslashN.eq_def]
  split
  · simp
  · next c rest _ =>
    simpa using (by simpa using h : c ≠ 'n')
  · simp

/-- Side condition extracted from the functional-induction overlap guard:
the scanned head is not the start of a backslash-`n` sequence. -/
theorem guard_side (c : Char) (rest : List Char)
    (hne : ∀ (r' : List Char), c = '\\' → rest = 'n' :: r' → False) :
    c ≠ '\\' ∨ rest.head? ≠ some 'n' := by
  by_cases hc : c = '\\'
  · right
    intro hh
    cases rest with
    | nil => simp at hh
    | cons d r' =>
      simp at hh
      exact hne r' hc (by rw [hh])
  · left; exact hc

theorem hasBackslashN_replaceBackslashN (l : List Char) :
    hasBackslashN (replaceBackslashN l) = false := by
  induction l using replaceBackslashN.induct with
  | case1 rest ih =>
    rw [replaceBackslashN, hasBackslashN_cons '\n' _ (Or.inl (by decide))]
    exact ih
  | case2 c rest hne ih =>
    have hside := guard_side c rest hne
    rw [replaceBackslashN_cons c rest hside]
    have hside' : c ≠ '\\' ∨ (replaceBackslashN rest).head? ≠ some 'n' := by
      rcases hside with h | h
      · exact Or.inl h
      · exact Or.inr (head_replaceBackslashN_ne rest h)
    rw [hasBackslashN_cons c _ hside']
    exact ih
  | case3 => rfl

theorem mem_newline_replaceBackslashN (l : List Char) (h : hasBackslashN l = true) :
    '\n' ∈ replaceBackslashN l := by
  induction l using replaceBackslashN.induct with
  | case1 rest ih =>
    rw [replaceBackslashN]
    exact List.mem_cons_self _ _
  | case2 c rest hne ih =>
    have hside := guard_side c rest hne
    rw [replaceBackslashN_cons c rest hside]
    rw [hasBackslashN_cons c rest hside] at h
    exact List.mem_cons_of_mem c (ih h)
  | case3 => simp [hasBackslashN] at h

/-! ## The native whole-text matcher

`applyExpression`, `applyBatch` and the modal submit handler use the
native regex engine through `text.match(searchRegex)` (whose array
length is the reported count; `null` means zero matches because the
flags always include `g`) and `text.replace(searchRegex, replaceString)`
(one replace-all pass).  A compiled matcher is therefore a pair of
those two whole-text operations; a compile function either produces one
or fails like the throwing `new RegExp` constructor. -/

structure Matcher where
  matchCount : String → Nat
  replaceAll : String → String → String

/-- The native `new RegExp(pattern, flags)` capability: `none` models the
thrown `SyntaxError`. -/
abbrev CompileFn := String → String → Option Matcher

/-! ### A concrete instance: literal substring matching

For a pattern containing no regex metacharacter and the plugin's default
flags `gm`, the native global regex behaves as literal substring search:
the match count is the number of non-overlapping leftmost occurrences
and replace-all equals split-and-rejoin (for replacement strings without
`$` group references, which is the case at every concrete use below).
Inputs outside this class are conservatively rejected, and the model is
only ever evaluated at inputs where its verdict agrees with the native
engine (in particular `new RegExp("(", "gm")` genuinely throws). -/

/-- Characters that are special in a JavaScript regex pattern. -/
def regexMetaChars : List Char :=
  ['.', '*', '+', '?', '^', '$', '(', ')', '[', ']', '|', '\\',
   Char.ofNat 123, Char.ofNat 125]

def isRegexMeta (c : Char) : Bool := regexMetaChars.contains c

/-- Split on every non-overlapping leftmost occurrence of `pat`
(JavaScript `String.prototype.split` with a non-empty literal
separator), char-list level. `acc` is the current piece, reversed;
`fuel` starts at `t.length + 1`, enough because every step consumes at
least one character of `t` while `pat` is non-empty. -/
def splitOnCharsAux (pat : List Char) : Nat → List Char → List Char → List (List Char)
  | 0, acc, t => [acc.reverse ++ t]
  | fuel + 1, acc, t =>
    if pat.isPrefixOf t then
      acc.reverse :: splitOnCharsAux pat fuel [] (t.drop pat.length)
    else
      match t with
      | [] => [acc.reverse]
      | c :: rest => splitOnCharsAux pat fuel (c :: acc) rest

def splitOnChars (pat t : List Char) : List (List Char) :=
  splitOnCharsAux pat (t.length + 1) [] t

/-- The literal matcher for a metacharacter-free pattern: count via
split, replace-all via split-and-rejoin. -/
def litMatcher (pattern : String) : Matcher where
  matchCount text := (splitOnChars pattern.data text.data).length - 1
  replaceAll text repl := ⟨List.intercalate repl.data (splitOnChars pattern.data text.data)⟩

/-- Model of the native compile restricted to its literal fragment:
non-empty metacharacter-free patterns with the plugin's default flags. -/
def litCompile : CompileFn := fun pattern flags =>
  if pattern = "" ∨ flags ≠ "gm" ∨ pattern.data.any isRegexMeta then none
  else some (litMatcher pattern)

/-! ## TransformEngine -/

/-- Outcome of `applyExpression` (src/main.ts:238-260): the compile can
throw, the match can be empty (`No match` notice, no write), or one
replace-all pass is written back. -/
inductive ExprOutcome where
  | compileError
  | noMatch
  | applied (text : String) (count : Nat)
deriving DecidableEq, Repr

/-- `applyExpression(editor, expr)` (src/main.ts:238-260).  The returned
trace lists the host text-buffer calls in issue order; `new RegExp`
runs before any host access, so a compile failure yields an empty
trace. -/
def applyExpression (compile : CompileFn) (st : EngineSettings) (ed : Editor)
    (expr : SavedExpression) : List EditOp × ExprOutcome :=
  match compile expr.pattern expr.flags with
  | none => ([], .compileError)
  | some searchRegex =>
    let replaceString := processReplacement st.processLineBreak st.processTab expr.replace
    if !st.selOnly then
      let documentText := ed.doc
      if 0 < searchRegex.matchCount documentText then
        ([.readDoc, .writeDoc (searchRegex.replaceAll documentText replaceString)],
         .applied (searchRegex.replaceAll documentText replaceString)
           (searchRegex.matchCount documentText))
      else ([.readDoc], .noMatch)
    else
      let selectedText := ed.sel
      if 0 < searchRegex.matchCount selectedText then
        ([.readSel, .writeSel (searchRegex.replaceAll selectedText replaceString)],
         .applied (searchRegex.replaceAll selectedText replaceString)
           (searchRegex.matchCount selectedText))
      else ([.readSel], .noMatch)

/-- The `for (const expr of exprs)` loop of `applyBatch`
(src/main.ts:266-276) over the moving text snapshot: compile, count
matches against the current text, and on a hit add the count and replace.
A compile failure is the uncaught `new RegExp` throw (`none`). -/
def batchLoop (compile : CompileFn) (st : EngineSettings) :
    List SavedExpression → String → Nat → Option (String × Nat)
  | [], text, total => some (text, total)
  | expr :: rest, text, total =>
    match compile expr.pattern expr.flags with
    | none => none
    | some searchRegex =>
      let replaceString := processReplacement st.processLineBreak st.processTab expr.replace
      let hits := searchRegex.matchCount text
      if 0 < hits then
        batchLoop compile st rest (searchRegex.replaceAll text replaceString) (total + hits)
      else
        batchLoop compile st rest text total

/-- One pass of the batch loop body as a text transformer: the text
after the expression and the match count it contributed. -/
def applyOne (compile : CompileFn) (st : EngineSettings) (expr : SavedExpression)
    (text : String) : Option (String × Nat) :=
  match compile expr.pattern expr.flags with
  | none => none
  | some searchRegex =>
    let replaceString := processReplacement st.processLineBreak st.processTab expr.replace
    let hits := searchRegex.matchCount text
    if 0 < hits then some (searchRegex.replaceAll text replaceString, hits)
    else some (text, 0)

/-- Outcome of `applyBatch` (src/main.ts:262-279). -/
inductive BatchOutcome where
  | noExpressions
  | compileError
  | applied (text : String) (totalCount : Nat)
deriving DecidableEq, Repr

/-- `applyBatch(editor, exprs)` (src/main.ts:262-279): early return on an
empty list; otherwise one scope read, the sequential loop, and one
unconditional scope write (even when the total count is zero).  A
compile failure inside the loop throws before the write. -/
def applyBatch (compile : CompileFn) (st : EngineSettings) (ed : Editor)
    (exprs : List SavedExpression) : List EditOp × BatchOutcome :=
  if exprs.isEmpty then ([], .noExpressions)
  else
    let text := if st.selOnly then ed.sel else ed.doc
    let readOp : EditOp := if st.selOnly then .readSel else .readDoc
    match batchLoop compile st exprs text 0 with
    | none => ([readOp], .compileError)
    | some (text', total) =>
      ([readOp, if st.selOnly then .writeSel text' else .writeDoc text'],
       .applied text' total)

/-- Group resolution (src/main.ts:282): filter the live expression store
by membership of the expression's name in `group.items` — store order,
dangling names silently dropped. -/
def resolveGroup (store : List SavedExpression) (g : ExpressionGroup) :
    List SavedExpression :=
  store.filter (fun e => g.items.contains e.name)

/-- `applyGroup(editor, group)` (src/main.ts:281-285): `none` is the
`EmptyGroup` notice (no text operation at all); otherwise delegate to
`applyBatch` with the resolved list. -/
def applyGroup (compile : CompileFn) (st : EngineSettings) (ed : Editor)
    (store : List SavedExpression) (g : ExpressionGroup) :
    Option (List EditOp × BatchOutcome) :=
  let exprs := resolveGroup store g
  if exprs.length = 0 then none
  else some (applyBatch compile st ed exprs)

/-! ## The find/replace modal submit handler (src/main.ts:474-558) -/

/-- Outcome of the `Replace All` click, as a function of the scope text:
empty-pattern rejection, regex mode (compile failure / no match / one
replace-all pass), or literal split-and-rejoin mode. -/
inductive SubmitResult where
  | emptyPattern
  | invalidRegex
  | regexNoMatch
  | regexApplied (text : String) (count : Nat)
  | literalApplied (text : String) (count : Nat)
deriving DecidableEq, Repr

/-- The submit handler: empty-pattern guard first, then escape
resolution of the replace field, then the regex-or-literal branch.  In
literal mode the scope text is split on every literal occurrence of the
search string and rejoined with the (escape-resolved) replacement
inserted verbatim; the count is the number of pieces minus one.  The
literal branch never consults `compile`. -/
def modalSubmit (compile : CompileFn) (st : EngineSettings)
    (searchString replaceInput : String) (useRegex : Bool) (flags : String)
    (scopeText : String) : SubmitResult :=
  if searchString = "" then .emptyPattern
  else
    let replaceString := processReplacement st.processLineBreak st.processTab replaceInput
    if useRegex then
      match compile searchString flags with
      | none => .invalidRegex
      | some searchRegex =>
        if 0 < searchRegex.matchCount scopeText then
          .regexApplied (searchRegex.replaceAll scopeText replaceString)
            (searchRegex.matchCount scopeText)
        else .regexNoMatch
    else
      let pieces := splitOnChars searchString.data scopeText.data
      .literalApplied ⟨List.intercalate replaceString.data pieces⟩ (pieces.length - 1)

/-! ### Concrete data for the examples -/

/-- Document scope, no escape expansion. -/
def stDoc : EngineSettings := ⟨false, false, false⟩

def exprFooBar : SavedExpression := ⟨"A", "foo", "gm", "bar"⟩

def exprBarBaz : SavedExpression := ⟨"B", "bar", "gm", "baz"⟩

/-- An expression whose pattern `(` fails to compile (unterminated group). -/
def exprBadParen : SavedExpression := ⟨"bad", "(", "gm", ""⟩

/-- An expression matching nothing in the text `abc`. -/
def exprNoHit : SavedExpression := ⟨"X", "x", "gm", "y"⟩

/-! ## Batch-loop lemmas -/

theorem batchLoop_cons (compile : CompileFn) (st : EngineSettings)
    (e : SavedExpression) (rest : List SavedExpression) (text : String) (total : Nat) :
    batchLoop compile st (e :: rest) text total =
      (applyOne compile st e text).bind
        (fun p => batchLoop compile st rest p.1 (total + p.2)) := by
  rw [batchLoop, applyOne]
  cases compile e.pattern e.flags with
  | none => rfl
  | some searchRegex =>
    by_cases h : 0 < searchRegex.matchCount text <;> simp [h]

theorem batchLoop_none_of_compileFail (compile : CompileFn) (st : EngineSettings)
    (exprs : List SavedExpression) (e : SavedExpression)
    (hmem : e ∈ exprs) (hfail : compile e.pattern e.flags = none) :
    ∀ text total, batchLoop compile st exprs text total = none := by
  induction exprs with
  | nil => cases hmem
  | cons e0 rest ih =>
    intro text total
    rw [batchLoop]
    rcases List.mem_cons.mp hmem with heq | hmem'
    · subst heq
      rw [hfail]
    · cases hc : compile e0.pattern e0.flags with
      | none => rfl
      | some searchRegex =>
        simp only
        split <;> exact ih hmem' _ _

theorem batchLoop_isSome_of_all_compile (compile : CompileFn) (st : EngineSettings)
    (exprs : List SavedExpression)
    (hall : ∀ e ∈ exprs, (compile e.pattern e.flags).isSome) :
    ∀ text total, (batchLoop compile st exprs text total).isSome := by
  induction exprs with
  | nil => intro text total; rw [batchLoop]; rfl
  | cons e0 rest ih =>
    intro text total
    rw [batchLoop]
    cases hc : compile e0.pattern e0.flags with
    | none =>
      have := hall e0 (List.mem_cons_self _ _)
      rw [hc] at this
      cases this
    | some searchRegex =>
      have hall' : ∀ e ∈ rest, (compile e.pattern e.flags).isSome :=
        fun e he => hall e (List.mem_cons_of_mem _ he)
      simp only
      split <;> exact ih hall' _ _

/-! ## Claim theorems: TransformEngine -/

/-- C1.  Batch application is sequential composition: the batch loop
processes the expression list strictly in order, each expression
transforming the output text of the previous one via `applyOne`, with
the running total incremented by the match count measured against the
text state at that moment; the whole batch reads the scope once and
writes the final text.  Concretely, with A = (`foo` → `bar`) and
B = (`bar` → `baz`), applying [A, B] to `foo` yields `baz` with total
count 2, while [B, A] yields `bar` with total count 1. -/
theorem batch_sequential_composition :
    (∀ (compile : CompileFn) (st : EngineSettings) (e : SavedExpression)
        (rest : List SavedExpression) (text : String) (total : Nat),
        batchLoop compile st (e :: rest) text total =
          (applyOne compile st e text).bind
            (fun p => batchLoop compile st rest p.1 (total + p.2))) ∧
    (∀ (compile : CompileFn) (st : EngineSettings) (ed : Editor)
        (e : SavedExpression) (rest : List SavedExpression),
        (applyBatch compile st ed (e :: rest)).2 =
          (batchLoop compile st (e :: rest)
              (if st.selOnly then ed.sel else ed.doc) 0).elim
            BatchOutcome.compileError (fun p => .applied p.1 p.2)) ∧
    applyBatch litCompile stDoc ⟨"foo", ""⟩ [exprFooBar, exprBarBaz] =
      ([.readDoc, .writeDoc "baz"], .applied "baz" 2) ∧
    applyBatch litCompile stDoc ⟨"foo", ""⟩ [exprBarBaz, exprFooBar] =
      ([.readDoc, .writeDoc "bar"], .applied "bar" 1) := by
  refine ⟨batchLoop_cons, ?_, by decide, by decide⟩
  intro compile st ed e rest
  rw [applyBatch]
  simp only [List.isEmpty_cons, ite_false, Bool.false_eq_true]
  cases hb : batchLoop compile st (e :: rest) (if st.selOnly then ed.sel else ed.doc) 0 with
  | none => rfl
  | some p => rfl

/-- C3.  Atomicity with respect to compile failure: if any member of a
batch fails to compile, the batch aborts with no write issued to the
host (earlier members' changes were only to the local text snapshot);
a single-expression application with a failing pattern issues no host
call at all, since `new RegExp` throws before the scope is read. -/
theorem compile_failure_atomicity :
    (∀ (compile : CompileFn) (st : EngineSettings) (ed : Editor)
        (exprs : List SavedExpression) (e : SavedExpression),
        e ∈ exprs → compile e.pattern e.flags = none →
        (applyBatch compile st ed exprs).2 = .compileError ∧
        countWrites (applyBatch compile st ed exprs).1 = 0) ∧
    (∀ (compile : CompileFn) (st : EngineSettings) (ed : Editor)
        (expr : SavedExpression),
        compile expr.pattern expr.flags = none →
        applyExpression compile st ed expr = ([], .compileError)) := by
  constructor
  · intro compile st ed exprs e hmem hfail
    have hnone := batchLoop_none_of_compileFail compile st exprs e hmem hfail
    cases exprs with
    | nil => cases hmem
    | cons e0 rest =>
      rw [applyBatch]
      simp only [List.isEmpty_cons, ite_false, Bool.false_eq_true]
      rw [hnone]
      cases st.selOnly <;> exact ⟨rfl, rfl⟩
  · intro compile st ed expr hfail
    rw [applyExpression, hfail]

/-- Witness for C3 at a concrete batch: the second member's pattern `(`
fails to compile, so the whole batch (whose first member would have
rewritten `foo` to `bar`) issues no write, and the single-expression
application of the bad pattern issues no host call. -/
theorem compile_failure_atomicity_witness :
    ((applyBatch litCompile stDoc ⟨"foo", ""⟩ [exprFooBar, exprBadParen]).2 =
        .compileError ∧
      countWrites (applyBatch litCompile stDoc ⟨"foo", ""⟩ [exprFooBar, exprBadParen]).1 = 0) ∧
    applyExpression litCompile stDoc ⟨"foo", ""⟩ exprBadParen = ([], .compileError) :=
  ⟨compile_failure_atomicity.1 litCompile stDoc ⟨"foo", ""⟩
      [exprFooBar, exprBadParen] exprBadParen (by decide) rfl,
   compile_failure_atomicity.2 litCompile stDoc ⟨"foo", ""⟩ exprBadParen rfl⟩

/-- C4 counterexample.  The claim "exactly one read and exactly one
write per invocation, including the zero-match case" fails: applying the
expression `x` → `y` to a document `abc` (zero matches) issues exactly
one read and no write — the source only calls `setValue` inside
`if (rresult)`. -/
theorem one_read_one_write_counterexample :
    applyExpression litCompile stDoc ⟨"abc", ""⟩ exprNoHit =
      ([.readDoc], .noMatch) ∧
    countWrites (applyExpression litCompile stDoc ⟨"abc", ""⟩ exprNoHit).1 = 0 := by
  decide

/-- C4 amended.  After a successful compile, every invocation issues
exactly one read; a non-empty batch whose members all compile issues
exactly one write (even when the total match count is zero), while a
single-expression application writes exactly once when the count is
positive and not at all on zero matches. -/
theorem one_read_write_discipline :
    (∀ (compile : CompileFn) (st : EngineSettings) (ed : Editor)
        (expr : SavedExpression),
        (compile expr.pattern expr.flags).isSome →
        countReads (applyExpression compile st ed expr).1 = 1 ∧
        (((applyExpression compile st ed expr).2 = .noMatch ∧
            countWrites (applyExpression compile st ed expr).1 = 0) ∨
          ((∃ t c, (applyExpression compile st ed expr).2 = .applied t c) ∧
            countWrites (applyExpression compile st ed expr).1 = 1))) ∧
    (∀ (compile : CompileFn) (st : EngineSettings) (ed : Editor)
        (exprs : List SavedExpression),
        exprs ≠ [] → (∀ e ∈ exprs, (compile e.pattern e.flags).isSome) →
        countReads (applyBatch compile st ed exprs).1 = 1 ∧
        countWrites (applyBatch compile st ed exprs).1 = 1) := by
  constructor
  · intro compile st ed expr hsome
    cases hc : compile expr.pattern expr.flags with
    | none => rw [hc] at hsome; cases hsome
    | some searchRegex =>
      rw [applyExpression, hc]
      cases hsel : st.selOnly with
      | false =>
        by_cases hm : 0 < searchRegex.matchCount ed.doc <;>
          simp [hm, countReads, countWrites, EditOp.isRead, EditOp.isWrite]
      | true =>
        by_cases hm : 0 < searchRegex.matchCount ed.sel <;>
          simp [hm, countReads, countWrites, EditOp.isRead, EditOp.isWrite]
  · intro compile st ed exprs hne hall
    cases exprs with
    | nil => exact absurd rfl hne
    | cons e0 rest =>
      have hsome := batchLoop_isSome_of_all_compile compile st (e0 :: rest) hall
        (if st.selOnly then ed.sel else ed.doc) 0
      rw [applyBatch]
      simp only [List.isEmpty_cons, ite_false, Bool.false_eq_true]
      cases hb : batchLoop compile st (e0 :: rest)
          (if st.selOnly then ed.sel else ed.doc) 0 with
      | none => rw [hb] at hsome; cases hsome
      | some p =>
        cases st.selOnly <;>
          simp [countReads, countWrites, EditOp.isRead, EditOp.isWrite]

/-- Witness for the amended C4: the expression `foo` → `bar` on document
`foo` compiles and matches, and the batch [`x` → `y`] on document `abc`
compiles with zero matches yet still reads once and writes once. -/
theorem one_read_write_discipline_witness :
    (countReads (applyExpression litCompile stDoc ⟨"foo", ""⟩ exprFooBar).1 = 1 ∧
      (((applyExpression litCompile stDoc ⟨"foo", ""⟩ exprFooBar).2 = .noMatch ∧
          countWrites (applyExpression litCompile stDoc ⟨"foo", ""⟩ exprFooBar).1 = 0) ∨
        ((∃ t c, (applyExpression litCompile stDoc ⟨"foo", ""⟩ exprFooBar).2 =
            .applied t c) ∧
          countWrites (applyExpression litCompile stDoc ⟨"foo", ""⟩ exprFooBar).1 = 1))) ∧
    (countReads (applyBatch litCompile stDoc ⟨"abc", ""⟩ [exprNoHit]).1 = 1 ∧
      countWrites (applyBatch litCompile stDoc ⟨"abc", ""⟩ [exprNoHit]).1 = 1) :=
  ⟨one_read_write_discipline.1 litCompile stDoc ⟨"foo", ""⟩ exprFooBar rfl,
   one_read_write_discipline.2 litCompile stDoc ⟨"abc", ""⟩ [exprNoHit]
     (by decide)
     (by intro e he; rw [List.mem_singleton] at he; subst he; rfl)⟩

/-- C5.  Group application resolves `group.items` against the live
store, silently dropping dangling names (removing a name matching no
stored expression leaves the resolution unchanged); an empty resolution
is the distinct `EmptyGroup` outcome with no text operation; otherwise
the call is exactly `applyBatch` of the resolved list.  Concretely, the
group `G` with items `["A", "Y"]` over a store holding only `A`
produces the same call as the batch `[A]` alone. -/
theorem group_resolution :
    (∀ (compile : CompileFn) (st : EngineSettings) (ed : Editor)
        (store : List SavedExpression) (g : ExpressionGroup),
        resolveGroup store g = [] →
        applyGroup compile st ed store g = none) ∧
    (∀ (compile : CompileFn) (st : EngineSettings) (ed : Editor)
        (store : List SavedExpression) (g : ExpressionGroup),
        resolveGroup store g ≠ [] →
        applyGroup compile st ed store g =
          some (applyBatch compile st ed (resolveGroup store g))) ∧
    (∀ (store : List SavedExpression) (g : ExpressionGroup) (n : String),
        (∀ e ∈ store, e.name ≠ n) →
        resolveGroup store g = resolveGroup store ⟨g.name, g.items.erase n⟩) ∧
    applyGroup litCompile stDoc ⟨"foo", ""⟩ [exprFooBar] ⟨"G", ["A", "Y"]⟩ =
      some (applyBatch litCompile stDoc ⟨"foo", ""⟩ [exprFooBar]) := by
  refine ⟨?_, ?_, ?_, by decide⟩
  · intro compile st ed store g h
    rw [applyGroup]
    simp [h]
  · intro compile st ed store g h
    rw [applyGroup]
    simp [List.length_eq_zero, h]
  · intro store g n h
    unfold resolveGroup
    apply List.filter_congr
    intro e he
    have hne : e.name ≠ n := h e he
    have : e.name ∈ g.items.erase n ↔ e.name ∈ g.items := List.mem_erase_of_ne hne
    by_cases hm : e.name ∈ g.items
    · have h1 : g.items.contains e.name = true := List.elem_iff.mpr hm
      have h2 : (g.items.erase n).contains e.name = true :=
        List.elem_iff.mpr (this.mpr hm)
      rw [h1, h2]
    · have h1 : g.items.contains e.name = false := by
        rw [← Bool.not_eq_true]
        intro hcon
        exact hm (List.elem_iff.mp hcon)
      have h2 : (g.items.erase n).contains e.name = false := by
        rw [← Bool.not_eq_true]
        intro hcon
        exact hm (this.mp (List.elem_iff.mp hcon))
      rw [h1, h2]

/-- Witness for C5 at concrete inputs: the group with the dangling item
`Y` resolves to `[A]` and delegates to that batch; erasing the dangling
`Y` from the items leaves the resolution unchanged. -/
theorem group_resolution_witness :
    applyGroup litCompile stDoc ⟨"foo", ""⟩ [exprFooBar] ⟨"G", ["A", "Y"]⟩ =
      some (applyBatch litCompile stDoc ⟨"foo", ""⟩
        (resolveGroup [exprFooBar] ⟨"G", ["A", "Y"]⟩)) ∧
    resolveGroup [exprFooBar] ⟨"G", ["A", "Y"]⟩ =
      resolveGroup [exprFooBar] ⟨"G", (["A", "Y"].erase "Y")⟩ :=
  ⟨group_resolution.2.1 litCompile stDoc ⟨"foo", ""⟩ [exprFooBar] ⟨"G", ["A", "Y"]⟩
      (by decide),
   group_resolution.2.2.1 [exprFooBar] ⟨"G", ["A", "Y"]⟩ "Y" (by decide)⟩

/-- C10 (implicit).  The result of applying a group depends only on the
set of names in `group.items`: any permutation or duplication of the
items with the same underlying name set resolves to the same expression
list (the store's order filtered by membership) and hence produces the
same host calls and the same outcome. -/
theorem group_items_set_invariance
    (compile : CompileFn) (st : EngineSettings) (ed : Editor)
    (store : List SavedExpression) (name : String) (items1 items2 : List String)
    (h : ∀ n, n ∈ items1 ↔ n ∈ items2) :
    applyGroup compile st ed store ⟨name, items1⟩ =
      applyGroup compile st ed store ⟨name, items2⟩ := by
  have hres : resolveGroup store ⟨name, items1⟩ = resolveGroup store ⟨name, items2⟩ := by
    unfold resolveGroup
    apply List.filter_congr
    intro e _
    show List.elem e.name items1 = List.elem e.name items2
    by_cases hm : e.name ∈ items1
    · rw [List.elem_iff.mpr hm, List.elem_iff.mpr ((h e.name).mp hm)]
    · have h1 : List.elem e.name items1 = false := by
        rw [← Bool.not_eq_true]
        intro hcon
        exact hm (List.elem_iff.mp hcon)
      have h2 : List.elem e.name items2 = false := by
        rw [← Bool.not_eq_true]
        intro hcon
        exact hm ((h e.name).mpr (List.elem_iff.mp hcon))
      rw [h1, h2]
  rw [applyGroup, applyGroup, hres]

/-- Witness for C10: reordering and duplicating the items `["A", "B"]`
as `["B", "A", "A"]` leaves the group application unchanged. -/
theorem group_items_set_invariance_witness :
    applyGroup litCompile stDoc ⟨"foo", ""⟩ [exprFooBar, exprBarBaz]
        ⟨"G", ["A", "B"]⟩ =
      applyGroup litCompile stDoc ⟨"foo", ""⟩ [exprFooBar, exprBarBaz]
        ⟨"G", ["B", "A", "A"]⟩ :=
  group_items_set_invariance litCompile stDoc ⟨"foo", ""⟩ [exprFooBar, exprBarBaz]
    "G" ["A", "B"] ["B", "A", "A"]
    (by intro n; simp only [List.mem_cons, List.not_mem_nil, or_false]; tauto)

/-! ## MatchScanner: the preview exec loop (src/main.ts:411-426)

The preview scans with `while ((m = re.exec(targetText)) !== null)`.  A
global regex's `exec` searches from its `lastIndex`, returns the next
match and sets `lastIndex` to the match end; the loop then adds one on a
zero-length match (`if (m[0]?.length === 0) re.lastIndex++`).  The
native exec is abstracted as a function from (text, scan position) to
the next match `(index, length)`, with the two facts every native exec
satisfies: the match starts no earlier than the scan position and ends
within the text (hence `exec` also yields `none` whenever the position
has moved past the end).  The loop is written with explicit fuel; the
termination theorem below shows fuel `length + 1` makes it equal to the
unbounded source loop. -/

structure ExecMatcher where
  exec : List Char → Nat → Option (Nat × Nat)
  exec_start_le : ∀ t pos i l, exec t pos = some (i, l) → pos ≤ i
  exec_end_le : ∀ t pos i l, exec t pos = some (i, l) → i + l ≤ t.length

theorem exec_none_of_gt (m : ExecMatcher) (t : List Char) (pos : Nat)
    (h : t.length < pos) : m.exec t pos = none := by
  cases hm : m.exec t pos with
  | none => rfl
  | some p =>
    obtain ⟨i, l⟩ := p
    have h1 := m.exec_start_le t pos i l hm
    have h2 := m.exec_end_le t pos i l hm
    omega

/-- The raw match sequence the `while` loop steps through: each
iteration records the match and moves the cursor to the match end,
force-advanced by one more on a zero-length match. -/
def scanAux (m : ExecMatcher) (t : List Char) : Nat → Nat → List (Nat × Nat)
  | 0, _ => []
  | fuel + 1, pos =>
    match m.exec t pos with
    | none => []
    | some (i, l) => (i, l) :: scanAux m t fuel (if l = 0 then i + 1 else i + l)

theorem scanAux_stable (m : ExecMatcher) (t : List Char) :
    ∀ fuel1 fuel2 pos, t.length + 1 - pos ≤ fuel1 → t.length + 1 - pos ≤ fuel2 →
      scanAux m t fuel1 pos = scanAux m t fuel2 pos := by
  intro fuel1
  induction fuel1 with
  | zero =>
    intro fuel2 pos h1 _
    have hgt : t.length < pos := by omega
    rw [scanAux]
    cases fuel2 with
    | zero => rfl
    | succ f2 => rw [scanAux, exec_none_of_gt m t pos hgt]
  | succ f1 ih =>
    intro fuel2 pos h1 h2
    cases fuel2 with
    | zero =>
      have hgt : t.length < pos := by omega
      rw [scanAux, scanAux, exec_none_of_gt m t pos hgt]
    | succ f2 =>
      cases hm : m.exec t pos with
      | none => simp only [scanAux, hm]
      | some p =>
        obtain ⟨i, l⟩ := p
        have hs := m.exec_start_le t pos i l hm
        have he := m.exec_end_le t pos i l hm
        have hnext1 : t.length + 1 - (if l = 0 then i + 1 else i + l) ≤ f1 := by
          split <;> omega
        have hnext2 : t.length + 1 - (if l = 0 then i + 1 else i + l) ≤ f2 := by
          split <;> omega
        simp only [scanAux, hm]
        rw [ih _ _ hnext1 hnext2]

theorem scanAux_length_le (m : ExecMatcher) (t : List Char) :
    ∀ fuel pos, (scanAux m t fuel pos).length ≤ fuel := by
  intro fuel
  induction fuel with
  | zero => intro pos; rw [scanAux]; exact Nat.le_refl _
  | succ f ih =>
    intro pos
    cases hm : m.exec t pos with
    | none => simp [scanAux, hm]
    | some p =>
      obtain ⟨i, l⟩ := p
      simp only [scanAux, hm, List.length_cons]
      exact Nat.succ_le_succ (ih _)

theorem scanAux_start_ge (m : ExecMatcher) (t : List Char) :
    ∀ fuel pos p, p ∈ scanAux m t fuel pos → pos ≤ p.1 := by
  intro fuel
  induction fuel with
  | zero => intro pos p hp; rw [scanAux] at hp; cases hp
  | succ f ih =>
    intro pos p hp
    cases hm : m.exec t pos with
    | none => simp [scanAux, hm] at hp
    | some q =>
      obtain ⟨i, l⟩ := q
      simp only [scanAux, hm] at hp
      have hs := m.exec_start_le t pos i l hm
      rcases List.mem_cons.mp hp with heq | hmem
      · subst heq; exact hs
      · have hnext := ih _ _ hmem
        split at hnext <;> omega

/-- The recorded match start offsets are strictly increasing: every
match position is visited at most once. -/
theorem scanAux_pairwise (m : ExecMatcher) (t : List Char) :
    ∀ fuel pos, (scanAux m t fuel pos).Pairwise (fun p q => p.1 < q.1) := by
  intro fuel
  induction fuel with
  | zero => intro pos; rw [scanAux]; exact List.Pairwise.nil
  | succ f ih =>
    intro pos
    cases hm : m.exec t pos with
    | none => simp only [scanAux, hm]; exact List.Pairwise.nil
    | some q =>
      obtain ⟨i, l⟩ := q
      simp only [scanAux, hm]
      refine List.Pairwise.cons ?_ (ih _)
      intro q hq
      have hge := scanAux_start_ge m t f _ q hq
      have hs := m.exec_start_le t pos i l hm
      split at hge <;> omega

/-- Highlight range pushed by the preview loop
(`ranges.push({from, to})`, absolute offsets). -/
structure PreviewRange where
  fromPos : Nat
  toPos : Nat
deriving DecidableEq, Repr

/-- Preview list entry pushed by the loop
(`items.push({text, from, to})`). -/
structure PreviewItem where
  text : List Char
  fromPos : Nat
  toPos : Nat
deriving DecidableEq, Repr

/-- The preview `while` loop (src/main.ts:416-425): each match is
recorded in `ranges` and `items` only when `end > start`; a zero-length
match is skipped but still force-advances the cursor by one. -/
def previewLoop (m : ExecMatcher) (t : List Char) (startOffset : Nat) :
    Nat → Nat → List PreviewRange × List PreviewItem
  | 0, _ => ([], [])
  | fuel + 1, pos =>
    match m.exec t pos with
    | none => ([], [])
    | some (i, l) =>
      let rest := previewLoop m t startOffset fuel (if l = 0 then i + 1 else i + l)
      if 0 < l then
        (⟨startOffset + i, startOffset + i + l⟩ :: rest.1,
         ⟨(t.drop i).take l, startOffset + i, startOffset + i + l⟩ :: rest.2)
      else rest

theorem previewLoop_eq_filter (m : ExecMatcher) (t : List Char) (off : Nat) :
    ∀ fuel pos,
      previewLoop m t off fuel pos =
        (((scanAux m t fuel pos).filter fun p => decide (0 < p.2)).map
            (fun p => PreviewRange.mk (off + p.1) (off + p.1 + p.2)),
         ((scanAux m t fuel pos).filter fun p => decide (0 < p.2)).map
            (fun p => PreviewItem.mk ((t.drop p.1).take p.2) (off + p.1) (off + p.1 + p.2))) := by
  intro fuel
  induction fuel with
  | zero => intro pos; rfl
  | succ f ih =>
    intro pos
    cases hm : m.exec t pos with
    | none => simp only [previewLoop, scanAux, hm, List.filter_nil, List.map_nil]
    | some q =>
      obtain ⟨i, l⟩ := q
      simp only [previewLoop, scanAux, hm]
      rw [ih]
      by_cases hl : 0 < l
      · simp [List.filter_cons, hl]
      · simp [List.filter_cons, hl]

/-! ### Concrete exec matchers -/

/-- Length of the leading run of `x` characters. -/
def xRun (l : List Char) : Nat := (l.takeWhile (fun c => c == 'x')).length

theorem xRun_le (l : List Char) : xRun l ≤ l.length :=
  (List.takeWhile_prefix _).length_le

/-- The native behaviour of `/x*/gm`: at every position up to the end of
the text it matches the greedy (possibly empty) run of `x`. -/
def starXMatcher : ExecMatcher where
  exec t pos := if pos ≤ t.length then some (pos, xRun (t.drop pos)) else none
  exec_start_le := by
    intro t pos i l h
    by_cases hp : pos ≤ t.length
    · simp only [hp, if_true, Option.some.injEq, Prod.mk.injEq] at h
      omega
    · simp [hp] at h
  exec_end_le := by
    intro t pos i l h
    by_cases hp : pos ≤ t.length
    · simp only [hp, if_true, Option.some.injEq, Prod.mk.injEq] at h
      have hx : xRun (t.drop pos) ≤ t.length - pos := by
        have := xRun_le (t.drop pos)
        simpa [List.length_drop] using this
      omega
    · simp [hp] at h

/-- First index `≥ pos` where `pat` occurs in `t`, scanning positions one
by one (fuel covers the remaining positions). -/
def firstOccAux (pat t : List Char) : Nat → Nat → Option Nat
  | 0, _ => none
  | fuel + 1, pos =>
    if pat.isPrefixOf (t.drop pos) then some pos
    else firstOccAux pat t fuel (pos + 1)

theorem firstOccAux_ge (pat t : List Char) :
    ∀ fuel pos i, firstOccAux pat t fuel pos = some i → pos ≤ i := by
  intro fuel
  induction fuel with
  | zero => intro pos i h; simp [firstOccAux] at h
  | succ f ih =>
    intro pos i h
    rw [firstOccAux] at h
    split at h
    · injection h with h'; omega
    · have := ih _ _ h; omega

theorem firstOccAux_lt (pat t : List Char) :
    ∀ fuel pos i, firstOccAux pat t fuel pos = some i → i < pos + fuel := by
  intro fuel
  induction fuel with
  | zero => intro pos i h; simp [firstOccAux] at h
  | succ f ih =>
    intro pos i h
    rw [firstOccAux] at h
    split at h
    · injection h with h'; omega
    · have := ih _ _ h; omega

theorem firstOccAux_matches (pat t : List Char) :
    ∀ fuel pos i, firstOccAux pat t fuel pos = some i →
      pat.isPrefixOf (t.drop i) = true := by
  intro fuel
  induction fuel with
  | zero => intro pos i h; simp [firstOccAux] at h
  | succ f ih =>
    intro pos i h
    rw [firstOccAux] at h
    split at h
    · next hpre => injection h with h'; subst h'; exact hpre
    · exact ih _ _ h

/-- The native behaviour of a global regex whose pattern is a literal
(metacharacter-free) string: exec finds the first occurrence at or after
the scan position. -/
def litExecMatcher (pat : List Char) : ExecMatcher where
  exec t pos :=
    if pos ≤ t.length then
      (firstOccAux pat t (t.length + 1 - pos) pos).map (fun i => (i, pat.length))
    else none
  exec_start_le := by
    intro t pos i l h
    by_cases hp : pos ≤ t.length
    · simp only [hp, if_true, Option.map_eq_some'] at h
      obtain ⟨j, hj, hji⟩ := h
      have := firstOccAux_ge pat t _ _ _ hj
      injection hji with h1 h2
      omega
    · simp [hp] at h
  exec_end_le := by
    intro t pos i l h
    by_cases hp : pos ≤ t.length
    · simp only [hp, if_true, Option.map_eq_some'] at h
      obtain ⟨j, hj, hji⟩ := h
      injection hji with h1 h2
      subst h1 h2
      have hlt := firstOccAux_lt pat t _ _ _ hj
      have hpre := firstOccAux_matches pat t _ _ _ hj
      have hlen : pat.length ≤ t.length - j := by
        have := (List.isPrefixOf_iff_prefix.mp hpre).length_le
        simpa [List.length_drop] using this
      omega
    · simp [hp] at h

/-- Model of the native `new RegExp` for the preview path: literal
fragment only (non-empty metacharacter-free patterns, default flags);
everything else — including the genuinely invalid pattern `(` — is
rejected. -/
def rxCompile (pattern flags : String) : Option ExecMatcher :=
  if pattern = "" ∨ flags ≠ "gm" ∨ pattern.data.any isRegexMeta then none
  else some (litExecMatcher pattern.data)

/-! ## PreviewService: updatePreview (src/main.ts:391-449) -/

/-- What the `previewInfo` element displays: a match count
(`Matches: n`) or the soft `Invalid regex` state. -/
inductive PreviewInfo where
  | matches (n : Nat)
  | invalid
deriving DecidableEq, Repr

/-- The outputs of one `updatePreview()` run: the info line, the
highlight ranges dispatched to the editor decoration (empty list =
cleared), the rendered list entries (capped at 200), the number of
omitted entries, and the host reads issued (the preview never writes). -/
structure PreviewOut where
  info : PreviewInfo
  highlights : List PreviewRange
  shown : List PreviewItem
  more : Nat
  trace : List EditOp
deriving DecidableEq, Repr

/-- `updatePreview` as a function of its inputs.  Early return clearing
everything when regex mode is off or the pattern is empty; on compile
failure (the `catch` block) the soft invalid state with everything
cleared; otherwise the scan loop, the full untruncated `ranges` (also
the displayed count), and the list capped at 200 entries.  The scope
text is read before the `try` block; fuel `length + 1` equals the
unbounded source loop by `scanAux_stable`/`previewLoop_eq_filter`. -/
def updatePreview (compile : String → String → Option ExecMatcher)
    (ed : Editor) (pattern : String) (useRegex selOnly : Bool)
    (flags : String) (startOffset : Nat) : PreviewOut :=
  if useRegex = false ∨ pattern = "" then
    ⟨.matches 0, [], [], 0, []⟩
  else
    let targetText := if selOnly then ed.sel else ed.doc
    let readOp : EditOp := if selOnly then .readSel else .readDoc
    match compile pattern flags with
    | none => ⟨.invalid, [], [], 0, [readOp]⟩
    | some re =>
      let scanned := previewLoop re targetText.data startOffset
        (targetText.data.length + 1) 0
      ⟨.matches scanned.1.length, scanned.1, scanned.2.take 200,
       scanned.2.length - 200, [readOp]⟩

/-- Model of the native compile at the single pattern `x*` with the
default flags: it compiles fine and matches the greedy (possibly empty)
run of `x` at any position. -/
def starXCompile (pattern flags : String) : Option ExecMatcher :=
  if pattern = "x*" ∧ flags = "gm" then some starXMatcher else none

/-- C2 counterexample.  Scanning `/x*/` over the text `a` visits two
zero-length matches (at positions 0 and 1, the cursor force-advanced
each time), yet the preview output contains them zero times — not once:
`ranges` and `items` are empty and the displayed count is `Matches: 0`,
because the loop only pushes when `end > start`. -/
theorem preview_zero_length_counterexample :
    scanAux starXMatcher "a".data 2 0 = [(0, 0), (1, 0)] ∧
    previewLoop starXMatcher "a".data 0 2 0 = ([], []) ∧
    updatePreview starXCompile ⟨"a", ""⟩ "x*" true false "gm" 0 =
      ⟨.matches 0, [], [], 0, [.readDoc]⟩ := by
  exact ⟨by decide, by decide, by decide⟩

/-- C2 amended.  The preview scan visits each match position at most
once (strictly increasing match starts) and force-advances the cursor
past zero-length matches, but the preview output (ranges, items, and
hence the displayed count) consists of exactly the positive-length
matches, each exactly once at its offset position; zero-length matches
are excluded from the output. -/
theorem preview_includes_positive_matches_only :
    (∀ (m : ExecMatcher) (t : List Char) (off fuel pos : Nat),
        previewLoop m t off fuel pos =
          (((scanAux m t fuel pos).filter fun p => decide (0 < p.2)).map
              (fun p => PreviewRange.mk (off + p.1) (off + p.1 + p.2)),
           ((scanAux m t fuel pos).filter fun p => decide (0 < p.2)).map
              (fun p => PreviewItem.mk ((t.drop p.1).take p.2)
                (off + p.1) (off + p.1 + p.2)))) ∧
    (∀ (m : ExecMatcher) (t : List Char) (fuel pos : Nat),
        (scanAux m t fuel pos).Pairwise fun p q => p.1 < q.1) :=
  ⟨fun m t off => previewLoop_eq_filter m t off,
   fun m t => scanAux_pairwise m t⟩

/-- C7.  The scan loop terminates within `L + 1` steps over a text of
length `L`, for every matcher satisfying the native exec contract —
including every pattern capable of matching the empty string: giving
the loop any fuel beyond `L + 1` changes nothing, and the match
sequence has at most `L + 1` entries. -/
theorem scan_terminates_within_length_steps (m : ExecMatcher) (t : List Char)
    (fuel : Nat) (h : t.length + 1 ≤ fuel) :
    scanAux m t fuel 0 = scanAux m t (t.length + 1) 0 ∧
    (scanAux m t (t.length + 1) 0).length ≤ t.length + 1 :=
  ⟨scanAux_stable m t fuel (t.length + 1) 0 (by omega) (by omega),
   scanAux_length_le m t (t.length + 1) 0⟩

/-- Witness for C7: `/x*/` (which matches the empty string) over `xxa`
(length 3) stabilises at fuel 4 and yields at most 4 matches. -/
theorem scan_termination_witness :
    scanAux starXMatcher "xxa".data 10 0 = scanAux starXMatcher "xxa".data 4 0 ∧
    (scanAux starXMatcher "xxa".data 4 0).length ≤ 4 :=
  scan_terminates_within_length_steps starXMatcher "xxa".data 10 (by decide)

/-- C6.  Preview computation is a total function that never mutates the
text: regex mode off or an empty pattern yields the cleared state
(count 0, no ranges, no items, no host call); a pattern that fails to
compile yields the soft invalid state (count-free info, no ranges, no
items) after the single scope read; and no input whatsoever makes the
preview issue a write. -/
theorem preview_soft_failure :
    (∀ (compile : String → String → Option ExecMatcher) (ed : Editor)
        (useRegex selOnly : Bool) (flags : String) (off : Nat),
        updatePreview compile ed "" useRegex selOnly flags off =
          ⟨.matches 0, [], [], 0, []⟩) ∧
    (∀ (compile : String → String → Option ExecMatcher) (ed : Editor)
        (pattern : String) (selOnly : Bool) (flags : String) (off : Nat),
        updatePreview compile ed pattern false selOnly flags off =
          ⟨.matches 0, [], [], 0, []⟩) ∧
    (∀ (compile : String → String → Option ExecMatcher) (ed : Editor)
        (pattern : String) (selOnly : Bool) (flags : String) (off : Nat),
        pattern ≠ "" → compile pattern flags = none →
        updatePreview compile ed pattern true selOnly flags off =
          ⟨.invalid, [], [], 0, [if selOnly then .readSel else .readDoc]⟩) ∧
    (∀ (compile : String → String → Option ExecMatcher) (ed : Editor)
        (pattern : String) (useRegex selOnly : Bool) (flags : String) (off : Nat),
        countWrites (updatePreview compile ed pattern useRegex selOnly flags off).trace = 0) := by
  refine ⟨?_, ?_, ?_, ?_⟩
  · intro compile ed useRegex selOnly flags off
    simp [updatePreview]
  · intro compile ed pattern selOnly flags off
    simp [updatePreview]
  · intro compile ed pattern selOnly flags off hpat hc
    rw [updatePreview]
    rw [if_neg (by simp [hpat])]
    simp only [hc]
  · intro compile ed pattern useRegex selOnly flags off
    rw [updatePreview]
    split
    · rfl
    · cases hc : compile pattern flags with
      | none => cases selOnly <;> simp [hc, countWrites, EditOp.isWrite]
      | some re => cases selOnly <;> simp [hc, countWrites, EditOp.isWrite]

/-- Witness for C6: the pattern `(` (unterminated group) over the
document `abc` degrades to the soft invalid state after one read. -/
theorem preview_soft_failure_witness :
    updatePreview rxCompile ⟨"abc", ""⟩ "(" true false "gm" 0 =
      ⟨.invalid, [], [], 0, [.readDoc]⟩ :=
  preview_soft_failure.2.2.1 rxCompile ⟨"abc", ""⟩ "(" false "gm" 0
    (by decide) rfl

/-- C8.  Literal mode (`useRegex = false`): for every non-empty search
string — the submit handler rejects the empty string before this branch
— the result is the scope text split on every literal occurrence and
rejoined with the literal replacement (regex group tokens such as `$1`
inserted verbatim), the count is the number of pieces minus one, and
the branch never consults the compile capability, so it cannot fail to
compile regardless of `compile`.  Concretely `a.b` over `a.b a.b` with
replacement `X` yields `X X` with count 2 (literal dot, not wildcard),
and replacement `$1` over `a` is inserted verbatim. -/
theorem literal_mode_split_join :
    (∀ (compile : CompileFn) (st : EngineSettings)
        (searchString replaceInput flags scopeText : String),
        searchString ≠ "" →
        modalSubmit compile st searchString replaceInput false flags scopeText =
          .literalApplied
            ⟨List.intercalate
              (processReplacement st.processLineBreak st.processTab replaceInput).data
              (splitOnChars searchString.data scopeText.data)⟩
            ((splitOnChars searchString.data scopeText.data).length - 1)) ∧
    modalSubmit litCompile stDoc "a.b" "X" false "gm" "a.b a.b" =
      .literalApplied "X X" 2 ∧
    modalSubmit litCompile stDoc "a" "$1" false "gm" "a" =
      .literalApplied "$1" 1 := by
  refine ⟨?_, by decide, by decide⟩
  intro compile st searchString replaceInput flags scopeText h
  simp [modalSubmit, h]

/-- Witness for C8 at the concrete spec example. -/
theorem literal_mode_split_join_witness :
    modalSubmit litCompile stDoc "a.b" "X" false "gm" "a.b a.b" =
      .literalApplied
        ⟨List.intercalate
          (processReplacement false false "X").data
          (splitOnChars "a.b".data "a.b a.b".data)⟩
        ((splitOnChars "a.b".data "a.b a.b".data).length - 1) :=
  literal_mode_split_join.1 litCompile stDoc "a.b" "X" "gm" "a.b a.b" (by decide)

/-- C9.  Replacement-template escape resolution expands line breaks
before tabs (the resolved template with both toggles on is the tab
expansion applied after the line-break expansion), and, with line-break
expansion enabled, satisfies the round trip: the resolved template
contains no remaining literal backslash-`n`, and contains an actual
line-break character whenever the input template contained the
two-character sequence backslash-`n`. -/
theorem escape_expansion_round_trip :
    (∀ s : String, processReplacement true true s =
        ⟨replaceBackslashT (replaceBackslashN s.data)⟩) ∧
    (∀ s : String, hasBackslashN (processReplacement true false s).data = false) ∧
    (∀ s : String, hasBackslashN s.data = true →
        '\n' ∈ (processReplacement true false s).data) :=
  ⟨fun _ => rfl, fun s => hasBackslashN_replaceBackslashN s.data,
   fun s h => mem_newline_replaceBackslashN s.data h⟩

/-- Witness for C9 at the template `a\nb` (backslash-`n` spelled as two
characters): the resolution yields an actual line break and no residual
backslash-`n`. -/
theorem escape_expansion_round_trip_witness :
    hasBackslashN (processReplacement true false "a\\nb").data = false ∧
    '\n' ∈ (processReplacement true false "a\\nb").data :=
  ⟨escape_expansion_round_trip.2.1 "a\\nb",
   escape_expansion_round_trip.2.2 "a\\nb" (by decide)⟩
